import Mathlib

/-!
Verification of the `fibheap` library (a lazily consolidated multi-way-tree
heap, file `src/lib.rs`) via a shallow embedding.

Modelling conventions:
* Rust `Node<T>` becomes the nested inductive `Node α`; `FibonacciHeap<T>`
  becomes the structure `Heap α` with the same three fields.
* The element type is a preorder with decidable strict comparison, matching
  the `T: PartialOrd` bound (`<` and `>` are converses of one another).
* The `HashMap<usize, Node<T>>` used during consolidation has unspecified
  iteration order in Rust; it is modelled as an insertion-ordered association
  list (`DegMap`), which realises one admissible iteration order.  All
  order-sensitive theorems below are derived from invariants that hold for
  every iteration order.
* Indexing expressions that would panic in Rust (`roots[top_index]` with an
  out-of-range index) are modelled with the optional indexing operator; the `none` branch is
  unreachable for well-formed heaps, which is what every theorem assumes.
* `into_vec` (a `while let` loop) is modelled with fuel `len`, which is
  exactly enough for well-formed heaps since `pop` decrements `len`.
-/

namespace Fibheap

/-- Rust `Node<T>`: a value and an owned ordered list of children. -/
inductive Node (α : Type) : Type where
  | mk (value : α) (children : List (Node α)) : Node α

variable {α : Type}

/-- Field accessor for `value`. -/
def Node.value : Node α → α
  | .mk v _ => v

/-- Field accessor for `children`. -/
def Node.children : Node α → List (Node α)
  | .mk _ cs => cs

/-- Rust `Node::new`: a degree-0 node. -/
def Node.new (v : α) : Node α := .mk v []

/-- Rust `Node::degree`: the number of direct children. -/
def Node.degree (n : Node α) : ℕ := n.children.length

/-- Rust `Node::push_child`: append a child. -/
def Node.push_child : Node α → Node α → Node α
  | .mk v cs, c => .mk v (cs ++ [c])

@[simp] theorem Node.value_mk (v : α) (cs : List (Node α)) : (Node.mk v cs).value = v := rfl

@[simp] theorem Node.children_mk (v : α) (cs : List (Node α)) :
    (Node.mk v cs).children = cs := rfl

@[simp] theorem Node.value_new (v : α) : (Node.new v).value = v := rfl

@[simp] theorem Node.children_new (v : α) : (Node.new v).children = [] := rfl

@[simp] theorem Node.degree_new (v : α) : (Node.new v).degree = 0 := rfl

@[simp] theorem Node.value_push_child (n c : Node α) : (n.push_child c).value = n.value := by
  cases n; rfl

@[simp] theorem Node.children_push_child (n c : Node α) :
    (n.push_child c).children = n.children ++ [c] := by
  cases n; rfl

@[simp] theorem Node.degree_push_child (n c : Node α) :
    (n.push_child c).degree = n.degree + 1 := by
  cases n; simp [Node.degree]

/-- The multiset of all values in a tree (the node and all its descendants). -/
def Node.toMultiset : Node α → Multiset α
  | .mk v cs => v ::ₘ (cs.attach.map (fun c => Node.toMultiset c.1)).sum
termination_by n => sizeOf n
decreasing_by
  have h := List.sizeOf_lt_of_mem c.2
  simp only [Node.mk.sizeOf_spec]
  omega

/-- The multiset of all values in a forest. -/
def forestMult (l : List (Node α)) : Multiset α := (l.map Node.toMultiset).sum

@[simp] theorem forestMult_nil : forestMult ([] : List (Node α)) = 0 := rfl

@[simp] theorem forestMult_cons (n : Node α) (l : List (Node α)) :
    forestMult (n :: l) = n.toMultiset + forestMult l := by
  simp [forestMult]

@[simp] theorem forestMult_append (l₁ l₂ : List (Node α)) :
    forestMult (l₁ ++ l₂) = forestMult l₁ + forestMult l₂ := by
  simp [forestMult]

theorem Node.toMultiset_mk (v : α) (cs : List (Node α)) :
    (Node.mk v cs).toMultiset = v ::ₘ forestMult cs := by
  rw [Node.toMultiset]
  unfold forestMult
  congr 1
  rw [List.attach_map_val]

@[simp] theorem Node.toMultiset_new (v : α) : (Node.new v).toMultiset = {v} := by
  show (Node.mk v []).toMultiset = {v}
  rw [Node.toMultiset_mk]; rfl

theorem Node.toMultiset_push_child (n c : Node α) :
    (n.push_child c).toMultiset = n.toMultiset + c.toMultiset := by
  cases n with
  | mk v cs =>
    rw [Node.push_child, Node.toMultiset_mk, Node.toMultiset_mk]
    simp [Multiset.cons_add]

theorem Node.value_mem_toMultiset (n : Node α) : n.value ∈ n.toMultiset := by
  cases n with
  | mk v cs => rw [Node.toMultiset_mk]; exact Multiset.mem_cons_self _ _

theorem Node.toMultiset_ne_zero (n : Node α) : n.toMultiset ≠ 0 := by
  cases n with
  | mk v cs => rw [Node.toMultiset_mk]; exact Multiset.cons_ne_zero

section Ops

variable [Preorder α] [DecidableRel (fun a b : α => a < b)]

/-- The degree-keyed map of the consolidation phase.  The Rust code uses
`HashMap<usize, Node<T>>`; the model is an insertion-ordered association list
realising one admissible iteration order of the hash map. -/
abbrev DegMap (α : Type) := List (ℕ × Node α)

/-- `HashMap::remove`-style lookup: the node stored at degree `k`, if any. -/
def mapFind (m : DegMap α) (k : ℕ) : Option (Node α) :=
  (m.find? (fun e => e.1 == k)).map Prod.snd

/-- Removal of the entry at degree `k`. -/
def mapErase (m : DegMap α) (k : ℕ) : DegMap α :=
  m.eraseP (fun e => e.1 == k)

/-- Rust `map_update`, with explicit fuel for the carry-merge cascade.  The
fuel `m.length + 1` used by `map_update` can never run out because each
recursive call removes one entry from the map. -/
def map_updateAux : ℕ → DegMap α → Node α → DegMap α
  | 0, m, node => m ++ [(node.degree, node)]
  | fuel + 1, m, node =>
    match mapFind m node.degree with
    | some root =>
      if node.value < root.value then
        map_updateAux fuel (mapErase m node.degree) (node.push_child root)
      else
        map_updateAux fuel (mapErase m node.degree) (root.push_child node)
    | none => m ++ [(node.degree, node)]

/-- Rust `map_update`: insert a node into the degree map, carry-merging on
collisions (the strictly smaller value becomes the parent). -/
def map_update (m : DegMap α) (node : Node α) : DegMap α :=
  map_updateAux (m.length + 1) m node

/-- The `for`-loop of `pop` that feeds candidate roots into `map_update`. -/
def consolidate (m : DegMap α) : List (Node α) → DegMap α
  | [] => m
  | n :: ns => consolidate (map_update m n) ns

/-- The running-minimum reduction at the end of `pop`: emit every node except
a pending running minimum, emit the pending node last.  A strictly greater
incoming node is emitted at once; otherwise the pending node is emitted and
the incoming node becomes pending. -/
def drainMin : List (Node α) → Option (Node α) → List (Node α) → List (Node α)
  | [], none, acc => acc
  | [], some m, acc => acc ++ [m]
  | n :: ns, none, acc => drainMin ns (some n) acc
  | n :: ns, some m, acc =>
    if m.value < n.value then drainMin ns (some m) (acc ++ [n])
    else drainMin ns (some n) (acc ++ [m])

/-- The value-level running-minimum loop of `from_vec` (`min_cell` is the
pending slot; a strictly greater incoming value is emitted immediately as a
degree-0 root, otherwise the pending value is emitted and the incoming value
becomes pending). -/
def buildRoots : List α → Option α → List (Node α) → List (Node α)
  | [], none, roots => roots
  | [], some m, roots => roots ++ [Node.new m]
  | v :: vs, none, roots => buildRoots vs (some v) roots
  | v :: vs, some m, roots =>
    if m < v then buildRoots vs (some m) (roots ++ [Node.new v])
    else buildRoots vs (some v) (roots ++ [Node.new m])

/-- The value held by the pending slot (`min_cell`) of the `from_vec` loop
after the remaining input is consumed: the same loop as `buildRoots`,
projected onto the pending slot (a strictly greater incoming value leaves the
pending value in place, any other incoming value replaces it). -/
def finalPending : List α → Option α → Option α
  | [], p => p
  | v :: vs, none => finalPending vs (some v)
  | v :: vs, some m =>
    if m < v then finalPending vs (some m) else finalPending vs (some v)

end Ops

/-- Rust `FibonacciHeap<T>`: root forest, cached minimum index, total count. -/
structure Heap (α : Type) : Type where
  roots : List (Node α)
  top_index : ℕ
  len : ℕ

/-- Rust `FibonacciHeap::new` / `Default::default`. -/
def Heap.new : Heap α := { roots := [], top_index := 0, len := 0 }

/-- Rust `FibonacciHeap::len`. -/
def Heap.length (h : Heap α) : ℕ := h.len

/-- Rust `FibonacciHeap::is_empty`. -/
def Heap.is_empty (h : Heap α) : Bool := h.len == 0

/-- The multiset of every value stored anywhere in the heap. -/
def Heap.toMultiset (h : Heap α) : Multiset α := forestMult h.roots

section HeapOps

variable [Preorder α] [DecidableRel (fun a b : α => a < b)]

/-- Rust `FibonacciHeap::from_vec`: single pass, the running minimum kept in
the pending slot and emitted last, so `top_index = length - 1`. -/
def Heap.from_vec (vec : List α) : Heap α :=
  if vec.isEmpty then Heap.new
  else { roots := buildRoots vec none [], top_index := vec.length - 1, len := vec.length }

/-- Rust `FibonacciHeap::top` (peek).  `roots[top_index]` panics in Rust when
the index is out of range, which cannot happen for well-formed heaps; the
model returns `none` on that unreachable branch. -/
def Heap.top (h : Heap α) : Option α :=
  if h.len = 0 then none
  else (h.roots[h.top_index]?).map Node.value

/-- Rust `FibonacciHeap::push`: append a degree-0 root, retargeting
`top_index` when the new value is strictly smaller than the current minimum. -/
def Heap.push (h : Heap α) (v : α) : Heap α :=
  let ti :=
    if h.roots.isEmpty then h.top_index
    else
      match h.roots[h.top_index]? with
      | some cur => if v < cur.value then h.roots.length else h.top_index
      | none => h.top_index
  { roots := h.roots ++ [Node.new v], top_index := ti, len := h.len + 1 }

/-- Rust `FibonacciHeap::pop`: remove the minimum root, feed its children and
every other root through the degree-keyed carry-merge, then rebuild `roots`
through the running-minimum reduction (minimum emitted last). -/
def Heap.pop (h : Heap α) : Option α × Heap α :=
  if h.len = 0 then (none, h)
  else
    match h.roots[h.top_index]? with
    | none => (none, h)
    | some topN =>
      let m₁ := consolidate [] (h.roots.take h.top_index)
      let m₂ := consolidate m₁ topN.children
      let m₃ := consolidate m₂ (h.roots.drop (h.top_index + 1))
      if m₃.isEmpty then (some topN.value, { roots := [], top_index := 0, len := 0 })
      else
        (some topN.value,
          { roots := drainMin (m₃.map Prod.snd) none []
            top_index := m₃.length - 1
            len := h.len - 1 })

/-- Rust `FibonacciHeap::append`: O(1) merge, no consolidation; retarget
`top_index` when the minimum of `other` is strictly smaller. -/
def Heap.append (h : Heap α) (o : Heap α) : Heap α :=
  if o.len = 0 then h
  else if h.len = 0 then o
  else
    let ti :=
      match h.roots[h.top_index]?, o.roots[o.top_index]? with
      | some a, some b => if b.value < a.value then h.roots.length + o.top_index else h.top_index
      | _, _ => h.top_index
    { roots := h.roots ++ o.roots, top_index := ti, len := h.len + o.len }

/-- The `while let Some(value) = self.pop()` loop of `into_vec`, with fuel. -/
def Heap.drainAux : ℕ → Heap α → List α
  | 0, _ => []
  | fuel + 1, h =>
    match h.pop with
    | (none, _) => []
    | (some v, h') => v :: Heap.drainAux fuel h'

/-- Rust `FibonacciHeap::into_vec`: pop until the heap is empty.  Fuel `len`
suffices because each successful `pop` of a well-formed heap decrements
`len`; the `Iterator::next` of the source is the same `pop`. -/
def Heap.into_vec (h : Heap α) : List α := Heap.drainAux h.len h

end HeapOps

/-! ## Invariants -/

theorem mem_forestMult {l : List (Node α)} {y : α} :
    y ∈ forestMult l ↔ ∃ r ∈ l, y ∈ r.toMultiset := by
  induction l with
  | nil => simp
  | cons n ns ih => simp [Multiset.mem_add, ih]

theorem card_forestMult_pos {l : List (Node α)} (hl : l ≠ []) :
    0 < Multiset.card (forestMult l) := by
  cases l with
  | nil => exact absurd rfl hl
  | cons n ns =>
    rw [forestMult_cons]
    have := n.toMultiset_ne_zero
    rcases Multiset.exists_mem_of_ne_zero this with ⟨y, hy⟩
    have : y ∈ n.toMultiset + forestMult ns := Multiset.mem_add.mpr (Or.inl hy)
    exact Multiset.card_pos.mpr fun h0 => by simp [h0] at this

section OrderedNodes

variable [Preorder α]

/-- Heap order on a tree: at every node, the value is less than or equal to
every value stored in each of its subtrees.  This is the invariant the source
establishes at child-attachment time (the absorbing node of a carry-merge has
the smaller value) and never re-validates. -/
inductive Node.Ordered : Node α → Prop where
  | mk {v : α} {cs : List (Node α)}
      (hle : ∀ c ∈ cs, ∀ y ∈ c.toMultiset, v ≤ y)
      (hcs : ∀ c ∈ cs, Node.Ordered c) : Node.Ordered (.mk v cs)

theorem Node.Ordered.leaf (v : α) : (Node.new v).Ordered :=
  Node.Ordered.mk (by simp) (by simp)

theorem Node.Ordered.le_of_mem {n : Node α} (hn : n.Ordered) :
    ∀ y ∈ n.toMultiset, n.value ≤ y := by
  cases n with
  | mk v cs =>
    cases hn with
    | mk hle hcs =>
      intro y hy
      rw [Node.toMultiset_mk] at hy
      rcases Multiset.mem_cons.mp hy with h | h
      · exact h ▸ le_refl _
      · rcases mem_forestMult.mp h with ⟨c, hc, hyc⟩
        exact hle c hc y hyc

theorem Node.Ordered.push_child {n c : Node α} (hn : n.Ordered) (hc : c.Ordered)
    (hv : n.value ≤ c.value) : (n.push_child c).Ordered := by
  cases n with
  | mk v cs =>
    cases hn with
    | mk hle hcs =>
      refine Node.Ordered.mk (fun d hd y hy => ?_) (fun d hd => ?_)
      · rcases List.mem_append.mp hd with h | h
        · exact hle d h y hy
        · have hd' : d = c := List.mem_singleton.mp h
          subst hd'
          exact le_trans hv (hc.le_of_mem y hy)
      · rcases List.mem_append.mp hd with h | h
        · exact hcs d h
        · exact (List.mem_singleton.mp h) ▸ hc

end OrderedNodes

/-- The heap invariants exactly as the specification lists them:
`len = 0` iff the root forest is empty; when non-empty, `top_index` is in
range and the value there is a lower bound for every value reachable from any
root; `len` counts every node of the forest; every tree is heap-ordered. -/
def Heap.Inv [Preorder α] (h : Heap α) : Prop :=
  (h.len = 0 ↔ h.roots = []) ∧
  (0 < h.len → h.top_index < h.roots.length ∧
    ∀ mn ∈ h.roots[h.top_index]?, ∀ y ∈ h.toMultiset, mn.value ≤ y) ∧
  h.len = Multiset.card h.toMultiset ∧
  ∀ r ∈ h.roots, r.Ordered

/-- The inductive strengthening of `Heap.Inv` actually maintained by the
code: an empty heap also has `top_index = 0` (`default`, `from_vec` of an
empty vector and the emptying branch of `pop` all reset it). -/
def Heap.WF [Preorder α] (h : Heap α) : Prop :=
  h.Inv ∧ (h.len = 0 → h.top_index = 0)

theorem Heap.wf_empty [Preorder α] : (Heap.new : Heap α).WF := by
  refine ⟨⟨by simp [Heap.new], ?_, by simp [Heap.new, Heap.toMultiset], by simp [Heap.new]⟩, by simp [Heap.new]⟩
  intro h0
  simp [Heap.new] at h0

/-! ## The running-minimum reduction -/

theorem buildRoots_eq_drainMin [Preorder α] [DecidableRel (fun a b : α => a < b)]
    (vs : List α) : ∀ (p : Option α) (acc : List (Node α)),
    buildRoots vs p acc = drainMin (vs.map Node.new) (p.map Node.new) acc := by
  induction vs with
  | nil => intro p acc; cases p <;> rfl
  | cons v vs ih =>
    intro p acc
    cases p with
    | none => simp only [buildRoots, List.map_cons, Option.map_none, drainMin, ih]; rfl
    | some m =>
      simp only [buildRoots, List.map_cons, Option.map_some, drainMin, Node.value_new]
      by_cases h : m < v
      · rw [if_pos h, if_pos h, ih]; rfl
      · rw [if_neg h, if_neg h, ih]; rfl

/-- Full description of the running-minimum reduction: it emits a permutation
of the pending node and the incoming nodes after the accumulator, and the node
emitted last has the smallest value among them. -/
theorem drainMin_spec [LinearOrder α] [DecidableRel (fun a b : α => a < b)]
    (ns : List (Node α)) : ∀ (m : Node α) (acc : List (Node α)),
    ∃ t mn, drainMin ns (some m) acc = acc ++ t ++ [mn] ∧
      (mn :: t).Perm (m :: ns) ∧ mn.value ≤ m.value ∧
      ∀ x ∈ ns, mn.value ≤ x.value := by
  induction ns with
  | nil =>
    intro m acc
    exact ⟨[], m, by simp [drainMin], List.Perm.refl _, le_refl _, by simp⟩
  | cons n ns ih =>
    intro m acc
    by_cases hlt : m.value < n.value
    · rcases ih m (acc ++ [n]) with ⟨t, mn, heq, hperm, hm, hall⟩
      refine ⟨n :: t, mn, ?_, ?_, hm, ?_⟩
      · simp only [drainMin, if_pos hlt, heq, List.append_assoc, List.singleton_append]
      · exact (List.Perm.swap n mn t).trans ((hperm.cons n).trans (List.Perm.swap m n ns))
      · intro x hx
        rcases List.mem_cons.mp hx with h | h
        · exact h ▸ le_of_lt (lt_of_le_of_lt hm hlt)
        · exact hall x h
    · rcases ih n (acc ++ [m]) with ⟨t, mn, heq, hperm, hm, hall⟩
      refine ⟨m :: t, mn, ?_, ?_, le_trans hm (not_lt.mp hlt), ?_⟩
      · simp only [drainMin, if_neg hlt, heq, List.append_assoc, List.singleton_append]
      · exact (List.Perm.swap m mn t).trans (hperm.cons m)
      · intro x hx
        rcases List.mem_cons.mp hx with h | h
        · exact h ▸ hm
        · exact hall x h

/-! ## The degree-keyed map of the consolidation phase -/

/-- The multiset of every value stored in the trees of a degree map. -/
def mapMult (m : DegMap α) : Multiset α := (m.map (fun e => e.2.toMultiset)).sum

@[simp] theorem mapMult_nil : mapMult ([] : DegMap α) = 0 := rfl

@[simp] theorem mapMult_cons (e : ℕ × Node α) (m : DegMap α) :
    mapMult (e :: m) = e.2.toMultiset + mapMult m := by
  simp [mapMult]

@[simp] theorem mapMult_append (m₁ m₂ : DegMap α) :
    mapMult (m₁ ++ m₂) = mapMult m₁ + mapMult m₂ := by
  simp [mapMult]

theorem mapMult_perm {m₁ m₂ : DegMap α} (h : m₁.Perm m₂) : mapMult m₁ = mapMult m₂ := by
  unfold mapMult
  exact (h.map (fun e => e.2.toMultiset)).sum_eq

/-- Invariant of the degree map: every stored tree is heap-ordered and keyed
by its own degree, and the keys are pairwise distinct. -/
def MapOK [Preorder α] (m : DegMap α) : Prop :=
  (∀ e ∈ m, (e.2 : Node α).Ordered ∧ e.1 = (e.2 : Node α).degree) ∧
  (m.map Prod.fst).Nodup

theorem MapOK.nil [Preorder α] : MapOK ([] : DegMap α) := ⟨by simp, by simp⟩

theorem mapFind_eq_none_iff {m : DegMap α} {k : ℕ} :
    mapFind m k = none ↔ ∀ e ∈ m, e.1 ≠ k := by
  rw [mapFind, Option.map_eq_none']
  simp [List.find?_eq_none]

theorem mapFind_some_perm {m : DegMap α} {k : ℕ} {r : Node α}
    (h : mapFind m k = some r) : m.Perm ((k, r) :: mapErase m k) := by
  induction m with
  | nil => simp [mapFind] at h
  | cons e m ih =>
    by_cases he : e.1 = k
    · have hfind : (e :: m).find? (fun e => e.1 == k) = some e := by
        rw [List.find?_cons_of_pos]
        exact beq_iff_eq.mpr he
      rw [mapFind, hfind] at h
      have h2 : e.2 = r := by simpa using h
      have her : e = (k, r) := by
        cases e
        simp_all
      rw [mapErase, List.eraseP_cons_of_pos (by exact beq_iff_eq.mpr he)]
      rw [her]
    · have hne : (e.1 == k) = false := beq_eq_false_iff_ne.mpr he
      have hfind : (e :: m).find? (fun e => e.1 == k) = m.find? (fun e => e.1 == k) := by
        rw [List.find?_cons]
        simp [hne]
      rw [mapFind, hfind] at h
      have := ih h
      rw [mapErase, List.eraseP_cons_of_neg (by simp [hne])]
      exact (this.cons e).trans (List.Perm.swap (k, r) e (mapErase m k))

theorem mapErase_sublist (m : DegMap α) (k : ℕ) : (mapErase m k).Sublist m :=
  List.eraseP_sublist m

theorem mapFind_some_mem {m : DegMap α} {k : ℕ} {r : Node α}
    (h : mapFind m k = some r) : (k, r) ∈ m :=
  (mapFind_some_perm h).symm.subset (List.mem_cons_self _ _)

theorem mapFind_some_length {m : DegMap α} {k : ℕ} {r : Node α}
    (h : mapFind m k = some r) : m.length = (mapErase m k).length + 1 := by
  have := (mapFind_some_perm h).length_eq
  simpa using this

section MapUpdate

variable [LinearOrder α] [DecidableRel (fun a b : α => a < b)]

theorem map_updateAux_spec : ∀ (fuel : ℕ) (m : DegMap α) (n : Node α),
    m.length < fuel → MapOK m → n.Ordered →
    MapOK (map_updateAux fuel m n) ∧
    mapMult (map_updateAux fuel m n) = n.toMultiset + mapMult m := by
  intro fuel
  induction fuel with
  | zero => intro m n h; omega
  | succ fuel ih =>
    intro m n hlen hok hn
    cases hfind : mapFind m n.degree with
    | none =>
      simp only [map_updateAux, hfind]
      have hkey : n.degree ∉ m.map Prod.fst := by
        intro hmem
        rcases List.mem_map.mp hmem with ⟨e, he, hek⟩
        exact (mapFind_eq_none_iff.mp hfind e he) hek
      refine ⟨⟨?_, ?_⟩, ?_⟩
      · intro e he
        rcases List.mem_append.mp he with h | h
        · exact hok.1 e h
        · rcases List.mem_singleton.mp h with rfl
          exact ⟨hn, rfl⟩
      · rw [List.map_append]
        have hperm : (m.map Prod.fst ++ [n.degree]).Perm (n.degree :: m.map Prod.fst) :=
          List.perm_append_singleton _ _
        exact hperm.nodup_iff.mpr (List.nodup_cons.mpr ⟨hkey, hok.2⟩)
      · rw [mapMult_append, mapMult_cons, mapMult_nil, add_zero, add_comm]
    | some root =>
      simp only [map_updateAux, hfind]
      have hperm := mapFind_some_perm hfind
      have hmem : (n.degree, root) ∈ m := mapFind_some_mem hfind
      have hroot := hok.1 _ hmem
      have hlen' : (mapErase m n.degree).length < fuel := by
        have := mapFind_some_length hfind
        omega
      have hok' : MapOK (mapErase m n.degree) := by
        constructor
        · intro e he
          exact hok.1 e ((mapErase_sublist m n.degree).subset he)
        · exact hok.2.sublist ((mapErase_sublist m n.degree).map Prod.fst)
      have hmm : mapMult m = root.toMultiset + mapMult (mapErase m n.degree) := by
        rw [mapMult_perm hperm, mapMult_cons]
      by_cases hv : n.value < root.value
      · rw [if_pos hv]
        have hmerged : (n.push_child root).Ordered :=
          hn.push_child hroot.1 (le_of_lt hv)
        rcases ih (mapErase m n.degree) (n.push_child root) hlen' hok' hmerged with ⟨hok₂, hmm₂⟩
        refine ⟨hok₂, ?_⟩
        rw [hmm₂, Node.toMultiset_push_child, hmm, add_assoc]
      · rw [if_neg hv]
        have hmerged : (root.push_child n).Ordered :=
          hroot.1.push_child hn (not_lt.mp hv)
        rcases ih (mapErase m n.degree) (root.push_child n) hlen' hok' hmerged with ⟨hok₂, hmm₂⟩
        refine ⟨hok₂, ?_⟩
        rw [hmm₂, Node.toMultiset_push_child, hmm, ← add_assoc,
          add_comm root.toMultiset n.toMultiset]

theorem map_update_spec {m : DegMap α} {n : Node α} (hok : MapOK m) (hn : n.Ordered) :
    MapOK (map_update m n) ∧ mapMult (map_update m n) = n.toMultiset + mapMult m :=
  map_updateAux_spec (m.length + 1) m n (Nat.lt_succ_self _) hok hn

theorem consolidate_spec : ∀ (ns : List (Node α)) (m : DegMap α),
    MapOK m → (∀ n ∈ ns, Node.Ordered n) →
    MapOK (consolidate m ns) ∧ mapMult (consolidate m ns) = forestMult ns + mapMult m := by
  intro ns
  induction ns with
  | nil => intro m hok _; exact ⟨hok, by simp [consolidate]⟩
  | cons n ns ih =>
    intro m hok hord
    rw [consolidate]
    rcases map_update_spec hok (hord n (List.mem_cons_self _ _)) with ⟨hok₁, hmm₁⟩
    rcases ih (map_update m n) hok₁ (fun x hx => hord x (List.mem_cons_of_mem _ hx)) with ⟨hok₂, hmm₂⟩
    refine ⟨hok₂, ?_⟩
    rw [hmm₂, hmm₁, forestMult_cons, add_assoc]
    exact add_left_comm _ _ _

end MapUpdate

/-! ## Support lemmas for the heap operations -/

theorem forestMult_perm {l₁ l₂ : List (Node α)} (h : l₁.Perm l₂) :
    forestMult l₁ = forestMult l₂ := by
  unfold forestMult
  exact (h.map Node.toMultiset).sum_eq

theorem forestMult_map_snd (m : DegMap α) : forestMult (m.map Prod.snd) = mapMult m := by
  unfold forestMult mapMult
  rw [List.map_map]
  rfl

theorem forestMult_map_new (l : List α) : forestMult (l.map Node.new) = (↑l : Multiset α) := by
  induction l with
  | nil => rfl
  | cons v vs ih =>
    rw [List.map_cons, forestMult_cons, Node.toMultiset_new, ih]
    rw [← Multiset.cons_coe, ← Multiset.singleton_add]

theorem Node.toMultiset_eq (n : Node α) :
    n.toMultiset = n.value ::ₘ forestMult n.children := by
  cases n with
  | mk v cs => rw [Node.toMultiset_mk]; rfl

theorem Node.Ordered.children_ordered [Preorder α] {n : Node α} (hn : n.Ordered) :
    ∀ c ∈ n.children, c.Ordered := by
  cases n with
  | mk v cs => cases hn with | mk hle hcs => exact hcs

theorem forestMult_split : ∀ {l : List (Node α)} {i : ℕ} {n : Node α},
    l[i]? = some n →
    forestMult l = forestMult (l.take i) + n.toMultiset + forestMult (l.drop (i + 1)) := by
  intro l
  induction l with
  | nil => intro i n h; simp at h
  | cons x xs ih =>
    intro i n h
    cases i with
    | zero =>
      rw [List.getElem?_cons_zero, Option.some_inj] at h
      subst h
      simp
    | succ j =>
      rw [List.getElem?_cons_succ] at h
      rw [List.take_succ_cons, List.drop_succ_cons, forestMult_cons, forestMult_cons, ih h]
      rw [add_assoc, add_assoc, add_assoc]

/-! ## Specifications of the public operations -/

section OpSpecs

variable [LinearOrder α] [DecidableRel (fun a b : α => a < b)]

theorem Heap.from_vec_spec (l : List α) :
    (Heap.from_vec l).WF ∧ (Heap.from_vec l).toMultiset = (↑l : Multiset α) := by
  cases l with
  | nil =>
    refine ⟨Heap.wf_empty, ?_⟩
    simp [Heap.from_vec, Heap.new, Heap.toMultiset]
  | cons x xs =>
    have hfv : Heap.from_vec (x :: xs) =
        { roots := buildRoots (x :: xs) none [], top_index := (x :: xs).length - 1,
          len := (x :: xs).length } := by
      rw [Heap.from_vec, if_neg (by simp)]
    have hbr : buildRoots (x :: xs) none ([] : List (Node α)) =
        drainMin (xs.map Node.new) (some (Node.new x)) [] := by
      rw [buildRoots_eq_drainMin]; rfl
    rcases drainMin_spec (xs.map Node.new) (Node.new x) [] with ⟨t, mn, heq, hperm, hm, hall⟩
    rw [List.nil_append] at heq
    have hpermall : (mn :: t).Perm ((x :: xs).map Node.new) := by
      rw [List.map_cons]; exact hperm
    have hlen_t : t.length = xs.length := by
      have := hpermall.length_eq
      simp at this
      omega
    have hvals : ∀ nd ∈ (x :: xs).map Node.new, mn.value ≤ nd.value := by
      intro nd hnd
      rw [List.map_cons] at hnd
      rcases List.mem_cons.mp hnd with h | h
      · exact h ▸ hm
      · exact hall nd h
    have htoM : forestMult (t ++ [mn]) = (↑(x :: xs) : Multiset α) := by
      rw [forestMult_perm ((List.perm_append_singleton mn t).trans hpermall),
        forestMult_map_new]
    have hmem_map : ∀ r ∈ t ++ [mn], r ∈ (x :: xs).map Node.new := by
      intro r hr
      exact hpermall.subset ((List.perm_append_singleton mn t).subset hr)
    rw [hfv, hbr, heq]
    constructor
    · refine ⟨⟨?_, ?_, ?_, ?_⟩, ?_⟩
      · simp
      · intro _
        refine ⟨by simp [hlen_t], ?_⟩
        have hget : (t ++ [mn])[(x :: xs).length - 1]? = some mn := by
          have hl : (x :: xs).length - 1 = t.length := by simp [hlen_t]
          rw [hl]
          exact List.getElem?_concat_length t mn
        intro mn' hmn' y hy
        rw [hget, Option.mem_some_iff] at hmn'
        subst hmn'
        simp only [Heap.toMultiset] at hy
        rw [htoM, Multiset.mem_coe] at hy
        have : Node.new y ∈ (x :: xs).map Node.new := List.mem_map_of_mem Node.new hy
        simpa using hvals _ this
      · simp only [Heap.toMultiset]
        rw [htoM, Multiset.coe_card]
      · intro r hr
        rcases List.mem_map.mp (hmem_map r hr) with ⟨v, _, rfl⟩
        exact Node.Ordered.leaf v
      · intro h0
        simp at h0
    · simp only [Heap.toMultiset]
      exact htoM

theorem Heap.push_spec {h : Heap α} (hwf : h.WF) (v : α) :
    (h.push v).WF ∧ (h.push v).toMultiset = v ::ₘ h.toMultiset ∧
    (h.push v).len = h.len + 1 := by
  rcases hwf with ⟨⟨hiff, hmin, hcard, hord⟩, hti0⟩
  have htoM : (h.push v).toMultiset = v ::ₘ h.toMultiset := by
    simp only [Heap.push, Heap.toMultiset]
    rw [forestMult_append, forestMult_cons, forestMult_nil, Node.toMultiset_new,
      add_zero, add_comm, ← Multiset.singleton_add]
  have hordall : ∀ r ∈ h.roots ++ [Node.new v], r.Ordered := by
    intro r hr
    rcases List.mem_append.mp hr with hr | hr
    · exact hord r hr
    · exact (List.mem_singleton.mp hr) ▸ Node.Ordered.leaf v
  have hcard' : (h.push v).len = Multiset.card (h.push v).toMultiset := by
    rw [htoM]
    simp [Heap.push, hcard]
  refine ⟨⟨⟨?_, ?_, hcard', by simpa [Heap.push] using hordall⟩, ?_⟩, htoM, rfl⟩
  · simp [Heap.push]
  · intro _
    by_cases hemp : h.roots.isEmpty
    · have hroots : h.roots = [] := List.isEmpty_iff.mp hemp
      have hti : h.top_index = 0 := hti0 (hiff.mpr hroots)
      have hpe : h.push v = Heap.mk [Node.new v] 0 (h.len + 1) := by
        simp [Heap.push, hemp, hroots, hti]
      have htoM' : (Heap.mk [Node.new v] 0 (h.len + 1)).toMultiset = v ::ₘ h.toMultiset := by
        rw [← hpe]; exact htoM
      rw [hpe]
      refine ⟨by simp, ?_⟩
      intro mn hmn y hy
      rw [List.getElem?_cons_zero, Option.mem_some_iff] at hmn
      subst hmn
      rw [htoM'] at hy
      have h0 : h.toMultiset = 0 := by simp [Heap.toMultiset, hroots]
      rw [h0] at hy
      simp at hy
      simp [hy]
    · have hroots : h.roots ≠ [] := by
        intro hc
        rw [hc] at hemp
        simp at hemp
      have hpos : 0 < h.len := Nat.pos_of_ne_zero (fun hc => hroots (hiff.mp hc))
      rcases hmin hpos with ⟨hlt, hminv⟩
      set cur := h.roots.get ⟨h.top_index, hlt⟩ with hcur
      have hget : h.roots[h.top_index]? = some cur := by
        rw [List.getElem?_eq_getElem hlt]
        rfl
      by_cases hv : v < cur.value
      · have hpe : h.push v =
            Heap.mk (h.roots ++ [Node.new v]) h.roots.length (h.len + 1) := by
          simp [Heap.push, hemp, hget, hv]
        have htoM' : (Heap.mk (h.roots ++ [Node.new v]) h.roots.length
            (h.len + 1)).toMultiset = v ::ₘ h.toMultiset := by
          rw [← hpe]; exact htoM
        rw [hpe]
        refine ⟨by simp, ?_⟩
        intro mn hmn y hy
        rw [List.getElem?_concat_length, Option.mem_some_iff] at hmn
        subst hmn
        rw [htoM'] at hy
        rcases Multiset.mem_cons.mp hy with hy | hy
        · simp [hy]
        · have := hminv cur (by rw [hget]; rfl) y hy
          simpa using le_trans (le_of_lt hv) this
      · have hpe : h.push v =
            Heap.mk (h.roots ++ [Node.new v]) h.top_index (h.len + 1) := by
          simp [Heap.push, hemp, hget, hv]
        have htoM' : (Heap.mk (h.roots ++ [Node.new v]) h.top_index
            (h.len + 1)).toMultiset = v ::ₘ h.toMultiset := by
          rw [← hpe]; exact htoM
        rw [hpe]
        refine ⟨by simp; omega, ?_⟩
        intro mn hmn y hy
        rw [List.getElem?_append_left hlt, hget, Option.mem_some_iff] at hmn
        subst hmn
        rw [htoM'] at hy
        rcases Multiset.mem_cons.mp hy with hy | hy
        · exact hy ▸ not_lt.mp hv
        · exact hminv cur (by rw [hget]; rfl) y hy
  · intro h0
    simp [Heap.push] at h0

theorem Heap.pop_spec {h : Heap α} (hwf : h.WF) (hne : h.len ≠ 0) :
    ∃ v h', h.pop = (some v, h') ∧ h'.WF ∧
      v ::ₘ h'.toMultiset = h.toMultiset ∧ (∀ y ∈ h.toMultiset, v ≤ y) ∧
      h'.len = h.len - 1 ∧
      (h'.len ≠ 0 →
        ((h'.roots.map Node.degree).Nodup ∧
          h'.top_index = h'.roots.length - 1 ∧
          ∀ mn ∈ h'.roots[h'.top_index]?, ∀ r ∈ h'.roots, mn.value ≤ r.value)) := by
  rcases hwf with ⟨⟨hiff, hmin, hcard, hord⟩, hti0⟩
  have hpos : 0 < h.len := Nat.pos_of_ne_zero hne
  rcases hmin hpos with ⟨hlt, hminv⟩
  set topN := h.roots.get ⟨h.top_index, hlt⟩ with htopN
  have hget : h.roots[h.top_index]? = some topN := by
    rw [List.getElem?_eq_getElem hlt]
    rfl
  have hvmin : ∀ y ∈ h.toMultiset, topN.value ≤ y := hminv topN (by rw [hget]; rfl)
  have hordtop : topN.Ordered := hord topN (List.get_mem _ _ _)
  have hord₁ : ∀ n ∈ h.roots.take h.top_index, n.Ordered :=
    fun n hn => hord n (List.take_subset _ _ hn)
  have hord₂ : ∀ n ∈ topN.children, n.Ordered := hordtop.children_ordered
  have hord₃ : ∀ n ∈ h.roots.drop (h.top_index + 1), n.Ordered :=
    fun n hn => hord n (List.drop_subset _ _ hn)
  rcases consolidate_spec (h.roots.take h.top_index) [] MapOK.nil hord₁ with ⟨hok₁, hmm₁⟩
  rcases consolidate_spec topN.children _ hok₁ hord₂ with ⟨hok₂, hmm₂⟩
  rcases consolidate_spec (h.roots.drop (h.top_index + 1)) _ hok₂ hord₃ with ⟨hok₃, hmm₃⟩
  have hpop : h.pop =
      (if (consolidate (consolidate (consolidate [] (h.roots.take h.top_index))
            topN.children) (h.roots.drop (h.top_index + 1))).isEmpty
        then (some topN.value, Heap.mk [] 0 0)
        else (some topN.value,
          Heap.mk
            (drainMin ((consolidate (consolidate (consolidate []
              (h.roots.take h.top_index)) topN.children)
              (h.roots.drop (h.top_index + 1))).map Prod.snd) none [])
            ((consolidate (consolidate (consolidate [] (h.roots.take h.top_index))
              topN.children) (h.roots.drop (h.top_index + 1))).length - 1)
            (h.len - 1))) := by
    simp only [Heap.pop, hget]
    rw [if_neg hne]
  set m₃ := consolidate (consolidate (consolidate [] (h.roots.take h.top_index))
    topN.children) (h.roots.drop (h.top_index + 1)) with hm₃
  have hsplit : h.toMultiset = topN.value ::ₘ mapMult m₃ := by
    rw [Heap.toMultiset, forestMult_split hget, Node.toMultiset_eq topN]
    rw [Multiset.add_cons, Multiset.cons_add]
    congr 1
    rw [hmm₃, hmm₂, hmm₁, mapMult_nil, add_zero]
    rw [add_comm (forestMult (h.roots.take h.top_index)) (forestMult topN.children)]
    rw [add_comm]
  by_cases hm3e : m₃.isEmpty
  · have hm3 : m₃ = [] := List.isEmpty_iff.mp hm3e
    rw [if_pos hm3e] at hpop
    have hm0 : mapMult m₃ = 0 := by rw [hm3]; rfl
    have hone : h.len = 1 := by
      rw [hcard, hsplit, hm0]
      rfl
    refine ⟨topN.value, Heap.mk [] 0 0, hpop, Heap.wf_empty, ?_, hvmin, by rw [hone], ?_⟩
    · rw [hsplit, hm0]
      rfl
    · intro hcon
      exact absurd rfl hcon
  · rw [if_neg hm3e] at hpop
    have hm3ne : m₃ ≠ [] := fun hc => hm3e (by rw [hc]; rfl)
    rcases List.exists_cons_of_ne_nil hm3ne with ⟨e, es, hm3⟩
    have hdstep : drainMin (m₃.map Prod.snd) none ([] : List (Node α)) =
        drainMin (es.map Prod.snd) (some e.2) [] := by
      rw [hm3, List.map_cons]
      rfl
    rcases drainMin_spec (es.map Prod.snd) e.2 [] with ⟨t, mn, heq, hperm, hmhead, hall⟩
    rw [List.nil_append] at heq
    have hdrain : drainMin (m₃.map Prod.snd) none ([] : List (Node α)) = t ++ [mn] := by
      rw [hdstep, heq]
    rw [hdrain] at hpop
    have hnodes : (mn :: t).Perm (m₃.map Prod.snd) := by
      rw [hm3, List.map_cons]
      exact hperm
    have hlen_t : t.length + 1 = m₃.length := by
      have hl := hnodes.length_eq
      simp only [List.length_cons, List.length_map] at hl
      exact hl
    have hm3pos : 0 < m₃.length := by rw [hm3]; simp
    have htoM' : forestMult (t ++ [mn]) = mapMult m₃ := by
      rw [forestMult_perm ((List.perm_append_singleton mn t).trans hnodes),
        forestMult_map_snd]
    have hvals : ∀ nd ∈ m₃.map Prod.snd, mn.value ≤ nd.value := by
      intro nd hnd
      rw [hm3, List.map_cons] at hnd
      rcases List.mem_cons.mp hnd with hh | hh
      · exact hh ▸ hmhead
      · exact hall nd hh
    have hmemnodes : ∀ r ∈ t ++ [mn], r ∈ m₃.map Prod.snd :=
      fun r hr => hnodes.subset ((List.perm_append_singleton mn t).subset hr)
    have hordnodes : ∀ r ∈ m₃.map Prod.snd, r.Ordered := by
      intro r hr
      rcases List.mem_map.mp hr with ⟨e', he', rfl⟩
      exact (hok₃.1 e' he').1
    have hcard₃ : Multiset.card (mapMult m₃) + 1 = h.len := by
      rw [hcard, hsplit, Multiset.card_cons]
    have hpos₃ : 0 < Multiset.card (mapMult m₃) := by
      rw [hm3, mapMult_cons, Multiset.card_add, Node.toMultiset_eq, Multiset.card_cons]
      omega
    have hget' : (t ++ [mn])[m₃.length - 1]? = some mn := by
      have hl : m₃.length - 1 = t.length := by omega
      rw [hl]
      exact List.getElem?_concat_length t mn
    have hminroots : ∀ r ∈ t ++ [mn], mn.value ≤ r.value :=
      fun r hr => hvals r (hmemnodes r hr)
    refine ⟨topN.value, Heap.mk (t ++ [mn]) (m₃.length - 1) (h.len - 1), hpop,
      ⟨⟨?_, ?_, ?_, ?_⟩, ?_⟩, ?_, hvmin, rfl, ?_⟩
    · constructor
      · intro h0
        have h0' : h.len - 1 = 0 := h0
        exact absurd h0' (by omega)
      · intro h0
        have h0' : t ++ [mn] = [] := h0
        exact absurd h0' (by simp)
    · intro _
      refine ⟨?_, ?_⟩
      · show m₃.length - 1 < (t ++ [mn]).length
        rw [List.length_append, List.length_singleton]
        omega
      intro mn' hmn' y hy
      rw [hget', Option.mem_some_iff] at hmn'
      subst hmn'
      simp only [Heap.toMultiset] at hy
      rcases mem_forestMult.mp hy with ⟨r, hr, hyr⟩
      exact le_trans (hminroots r hr) ((hordnodes r (hmemnodes r hr)).le_of_mem y hyr)
    · simp only [Heap.toMultiset]
      rw [htoM']
      omega
    · intro r hr
      exact hordnodes r (hmemnodes r hr)
    · intro h0
      have h0' : h.len - 1 = 0 := h0
      exact absurd h0' (by omega)
    · simp only [Heap.toMultiset]
      rw [htoM']
      exact hsplit.symm
    · intro _
      refine ⟨?_, ?_, ?_⟩
      · have hpmap : ((t ++ [mn]).map Node.degree).Perm ((m₃.map Prod.snd).map Node.degree) :=
          ((List.perm_append_singleton mn t).trans hnodes).map Node.degree
        have hdeg : (m₃.map Prod.snd).map Node.degree = m₃.map Prod.fst := by
          rw [List.map_map]
          exact List.map_congr_left (fun e' he' => ((hok₃.1 e' he').2).symm)
        rw [hpmap.nodup_iff, hdeg]
        exact hok₃.2
      · show m₃.length - 1 = (t ++ [mn]).length - 1
        rw [List.length_append, List.length_singleton]
        omega
      · intro mn' hmn' r hr
        rw [hget', Option.mem_some_iff] at hmn'
        subst hmn'
        exact hminroots r hr

theorem Heap.append_eq_of_lt {h o : Heap α} {a b : Node α}
    (hga : h.roots[h.top_index]? = some a) (hgb : o.roots[o.top_index]? = some b)
    (hhe : h.len ≠ 0) (hoe : o.len ≠ 0) (hvb : b.value < a.value) :
    h.append o =
      Heap.mk (h.roots ++ o.roots) (h.roots.length + o.top_index) (h.len + o.len) := by
  unfold Heap.append
  rw [if_neg hoe, if_neg hhe]
  simp only [hga, hgb]
  rw [if_pos hvb]

theorem Heap.append_eq_of_not_lt {h o : Heap α} {a b : Node α}
    (hga : h.roots[h.top_index]? = some a) (hgb : o.roots[o.top_index]? = some b)
    (hhe : h.len ≠ 0) (hoe : o.len ≠ 0) (hvb : ¬b.value < a.value) :
    h.append o = Heap.mk (h.roots ++ o.roots) h.top_index (h.len + o.len) := by
  unfold Heap.append
  rw [if_neg hoe, if_neg hhe]
  simp only [hga, hgb]
  rw [if_neg hvb]

theorem Heap.append_spec {h o : Heap α} (hwf : h.WF) (owf : o.WF) :
    (h.append o).WF ∧ (h.append o).toMultiset = h.toMultiset + o.toMultiset := by
  rcases hwf with ⟨⟨hiff, hmin, hcard, hord⟩, hti0⟩
  rcases owf with ⟨⟨oiff, omin, ocard, oord⟩, oti0⟩
  by_cases hoe : o.len = 0
  · have happ : h.append o = h := by
      unfold Heap.append
      rw [if_pos hoe]
    have hoM : o.toMultiset = 0 := by
      rw [Heap.toMultiset, oiff.mp hoe]
      rfl
    rw [happ, hoM, add_zero]
    exact ⟨⟨⟨hiff, hmin, hcard, hord⟩, hti0⟩, rfl⟩
  · by_cases hhe : h.len = 0
    · have happ : h.append o = o := by
        unfold Heap.append
        rw [if_neg hoe, if_pos hhe]
      have hhM : h.toMultiset = 0 := by
        rw [Heap.toMultiset, hiff.mp hhe]
        rfl
      rw [happ, hhM, zero_add]
      exact ⟨⟨⟨oiff, omin, ocard, oord⟩, oti0⟩, rfl⟩
    · have hposh : 0 < h.len := Nat.pos_of_ne_zero hhe
      have hposo : 0 < o.len := Nat.pos_of_ne_zero hoe
      rcases hmin hposh with ⟨hlt, hminv⟩
      rcases omin hposo with ⟨olt, ominv⟩
      set a := h.roots.get ⟨h.top_index, hlt⟩ with ha
      set b := o.roots.get ⟨o.top_index, olt⟩ with hb
      have hga : h.roots[h.top_index]? = some a := by
        rw [List.getElem?_eq_getElem hlt]
        rfl
      have hgb : o.roots[o.top_index]? = some b := by
        rw [List.getElem?_eq_getElem olt]
        rfl
      have hamem : ∀ y ∈ h.toMultiset, a.value ≤ y := hminv a (by rw [hga]; rfl)
      have hbmem : ∀ y ∈ o.toMultiset, b.value ≤ y := ominv b (by rw [hgb]; rfl)
      have hiffr : h.roots ≠ [] := fun hc => hhe (hiff.mpr hc)
      have hordall : ∀ r ∈ h.roots ++ o.roots, r.Ordered := by
        intro r hr
        rcases List.mem_append.mp hr with hr | hr
        · exact hord r hr
        · exact oord r hr
      have hcard' : h.len + o.len =
          Multiset.card (forestMult (h.roots ++ o.roots)) := by
        rw [forestMult_append, Multiset.card_add]
        rw [Heap.toMultiset] at hcard ocard
        omega
      have hne' : h.roots ++ o.roots ≠ [] := by
        intro hc
        exact hiffr (List.append_eq_nil.mp hc).1
      by_cases hvb : b.value < a.value
      · rw [Heap.append_eq_of_lt hga hgb hhe hoe hvb]
        refine ⟨⟨⟨?_, ?_, hcard', hordall⟩, ?_⟩, ?_⟩
        · constructor
          · intro h0
            have h0' : h.len + o.len = 0 := h0
            exact absurd h0' (by omega)
          · intro h0
            exact absurd h0 hne'
        · intro _
          refine ⟨?_, ?_⟩
          · show h.roots.length + o.top_index < (h.roots ++ o.roots).length
            rw [List.length_append]
            omega
          · intro mn hmn y hy
            have hmn' : mn ∈ (h.roots ++ o.roots)[h.roots.length + o.top_index]? := hmn
            have hle : h.roots.length ≤ h.roots.length + o.top_index := by omega
            rw [List.getElem?_append_right hle, Nat.add_sub_cancel_left, hgb,
              Option.mem_some_iff] at hmn'
            subst hmn'
            simp only [Heap.toMultiset, forestMult_append] at hy
            rcases Multiset.mem_add.mp hy with hy | hy
            · exact le_trans (le_of_lt hvb) (hamem y hy)
            · exact hbmem y hy
        · intro h0
          have h0' : h.len + o.len = 0 := h0
          exact absurd h0' (by omega)
        · simp only [Heap.toMultiset, forestMult_append]
      · rw [Heap.append_eq_of_not_lt hga hgb hhe hoe hvb]
        refine ⟨⟨⟨?_, ?_, hcard', hordall⟩, ?_⟩, ?_⟩
        · constructor
          · intro h0
            have h0' : h.len + o.len = 0 := h0
            exact absurd h0' (by omega)
          · intro h0
            exact absurd h0 hne'
        · intro _
          refine ⟨?_, ?_⟩
          · show h.top_index < (h.roots ++ o.roots).length
            rw [List.length_append]
            omega
          · intro mn hmn y hy
            have hmn' : mn ∈ (h.roots ++ o.roots)[h.top_index]? := hmn
            rw [List.getElem?_append_left hlt, hga, Option.mem_some_iff] at hmn'
            subst hmn'
            simp only [Heap.toMultiset, forestMult_append] at hy
            rcases Multiset.mem_add.mp hy with hy | hy
            · exact hamem y hy
            · exact le_trans (not_lt.mp hvb) (hbmem y hy)
        · intro h0
          have h0' : h.len + o.len = 0 := h0
          exact absurd h0' (by omega)
        · simp only [Heap.toMultiset, forestMult_append]

theorem Heap.drainAux_spec : ∀ (fuel : ℕ) (h : Heap α), h.WF → h.len ≤ fuel →
    List.Sorted (· ≤ ·) (Heap.drainAux fuel h) ∧
    (↑(Heap.drainAux fuel h) : Multiset α) = h.toMultiset := by
  intro fuel
  induction fuel with
  | zero =>
    intro h hwf hle
    have hl0 : h.len = 0 := Nat.le_zero.mp hle
    have htoM : h.toMultiset = 0 := by
      have hc := hwf.1.2.2.1
      rw [hl0] at hc
      exact Multiset.card_eq_zero.mp hc.symm
    exact ⟨by simp [Heap.drainAux], by simp [Heap.drainAux, htoM]⟩
  | succ fuel ih =>
    intro h hwf hle
    by_cases h0 : h.len = 0
    · have hpop : h.pop = (none, h) := by
        unfold Heap.pop
        rw [if_pos h0]
      have htoM : h.toMultiset = 0 := by
        have hc := hwf.1.2.2.1
        rw [h0] at hc
        exact Multiset.card_eq_zero.mp hc.symm
      constructor
      · simp [Heap.drainAux, hpop]
      · simp [Heap.drainAux, hpop, htoM]
    · rcases Heap.pop_spec hwf h0 with ⟨v, h2, hpop, hwf2, hmult, hmin, hlen, _⟩
      have hstep : Heap.drainAux (fuel + 1) h = v :: Heap.drainAux fuel h2 := by
        simp only [Heap.drainAux, hpop]
      rcases ih h2 hwf2 (by omega) with ⟨hsort, hmm⟩
      rw [hstep]
      constructor
      · rw [List.sorted_cons]
        refine ⟨?_, hsort⟩
        intro b hb
        have hbm : b ∈ h.toMultiset := by
          rw [← hmult]
          refine Multiset.mem_cons_of_mem ?_
          rw [← hmm]
          exact Multiset.mem_coe.mpr hb
        exact hmin b hbm
      · rw [← Multiset.cons_coe, hmm, hmult]

/-- Drain specification: popping a well-formed heap until empty produces its
values in non-decreasing order. -/
theorem Heap.into_vec_spec {h : Heap α} (hwf : h.WF) :
    List.Sorted (· ≤ ·) h.into_vec ∧ (↑h.into_vec : Multiset α) = h.toMultiset :=
  Heap.drainAux_spec h.len h hwf (le_refl _)

theorem Heap.foldl_push_spec (l : List α) : ∀ (h : Heap α), h.WF →
    (l.foldl Heap.push h).WF ∧
    (l.foldl Heap.push h).toMultiset = h.toMultiset + (↑l : Multiset α) := by
  induction l with
  | nil =>
    intro h hwf
    exact ⟨hwf, by simp⟩
  | cons v vs ih =>
    intro h hwf
    rcases Heap.push_spec hwf v with ⟨hwf1, htoM, _⟩
    rcases ih (h.push v) hwf1 with ⟨hwf2, htoM2⟩
    refine ⟨by rw [List.foldl_cons]; exact hwf2, ?_⟩
    rw [List.foldl_cons, htoM2, htoM, ← Multiset.cons_coe, Multiset.cons_add,
      Multiset.add_cons]

end OpSpecs

theorem Heap.top_eq_pop_fst [Preorder α] [DecidableRel (fun a b : α => a < b)]
    (h : Heap α) : h.top = (h.pop).1 := by
  unfold Heap.top Heap.pop
  by_cases h0 : h.len = 0
  · rw [if_pos h0, if_pos h0]
  · rw [if_neg h0, if_neg h0]
    cases hg : h.roots[h.top_index]? with
    | none => rfl
    | some topN =>
      show (some topN).map Node.value = _
      dsimp only
      split <;> rfl



/-! ## A preorder with distinguishable equal-comparing elements

Used to observe which of two equal-comparing values the bulk-construction
loop keeps in its pending slot; `KV` values compare by the `k` field only,
matching a `PartialOrd` implementation that ignores the payload `t`. -/

structure KV where
  k : ℕ
  t : ℕ
deriving DecidableEq

instance : Preorder KV where
  le a b := a.k ≤ b.k
  lt a b := a.k < b.k
  le_refl a := Nat.le_refl _
  le_trans a b c := Nat.le_trans
  lt_iff_le_not_le a b := Nat.lt_iff_le_not_le

instance (a b : KV) : Decidable (a < b) := Nat.decLt a.k b.k

instance : DecidableRel (fun a b : KV => a < b) := fun a b => Nat.decLt a.k b.k

section PendingSlot

variable [Preorder α] [DecidableRel (fun a b : α => a < b)]

/-- The `from_vec` loop always emits the final value of the pending slot as
its last root, after exactly one root per remaining input value. -/
theorem buildRoots_final_pending (vs : List α) :
    ∀ (m : α) (acc : List (Node α)), ∃ t p,
      finalPending vs (some m) = some p ∧
      buildRoots vs (some m) acc = acc ++ t ++ [Node.new p] ∧
      t.length = vs.length := by
  induction vs with
  | nil =>
    intro m acc
    exact ⟨[], m, rfl, by simp [buildRoots], rfl⟩
  | cons v vs ih =>
    intro m acc
    by_cases h : m < v
    · rcases ih m (acc ++ [Node.new v]) with ⟨t, p, hp, hb, hl⟩
      refine ⟨Node.new v :: t, p, ?_, ?_, by simp [hl]⟩
      · show (if m < v then finalPending vs (some m) else finalPending vs (some v)) = some p
        rw [if_pos h]
        exact hp
      · show (if m < v then buildRoots vs (some m) (acc ++ [Node.new v])
            else buildRoots vs (some v) (acc ++ [Node.new m])) =
          acc ++ (Node.new v :: t) ++ [Node.new p]
        rw [if_pos h, hb]
        simp [List.append_assoc]
    · rcases ih v (acc ++ [Node.new m]) with ⟨t, p, hp, hb, hl⟩
      refine ⟨Node.new m :: t, p, ?_, ?_, by simp [hl]⟩
      · show (if m < v then finalPending vs (some m) else finalPending vs (some v)) = some p
        rw [if_neg h]
        exact hp
      · show (if m < v then buildRoots vs (some m) (acc ++ [Node.new v])
            else buildRoots vs (some v) (acc ++ [Node.new m])) =
          acc ++ (Node.new m :: t) ++ [Node.new p]
        rw [if_neg h, hb]
        simp [List.append_assoc]

/-- Over a total preorder the pending slot tracks a running minimum, so its
final value is a lower bound of the initial pending value and of every
remaining input value. -/
theorem finalPending_min (htot : ∀ a b : α, a ≤ b ∨ b ≤ a) (vs : List α) :
    ∀ (m p : α), finalPending vs (some m) = some p →
      p ≤ m ∧ ∀ x ∈ vs, p ≤ x := by
  induction vs with
  | nil =>
    intro m p hp
    have hmp : m = p := Option.some_inj.mp (hp : (some m : Option α) = some p)
    subst hmp
    exact ⟨le_refl _, by simp⟩
  | cons v vs ih =>
    intro m p hp
    by_cases h : m < v
    · have hp2 : finalPending vs (some m) = some p := by
        have hstep : finalPending (v :: vs) (some m) = finalPending vs (some m) := by
          show (if m < v then finalPending vs (some m) else finalPending vs (some v)) = _
          rw [if_pos h]
        rw [hstep] at hp
        exact hp
      rcases ih m p hp2 with ⟨h1, h2⟩
      refine ⟨h1, ?_⟩
      intro x hx
      rcases List.mem_cons.mp hx with hx | hx
      · exact hx ▸ le_trans h1 (le_of_lt h)
      · exact h2 x hx
    · have hvm : v ≤ m := by
        rcases htot m v with hmv2 | hvm2
        · by_contra hc
          exact h (lt_iff_le_not_le.mpr ⟨hmv2, hc⟩)
        · exact hvm2
      have hp2 : finalPending vs (some v) = some p := by
        have hstep : finalPending (v :: vs) (some m) = finalPending vs (some v) := by
          show (if m < v then finalPending vs (some m) else finalPending vs (some v)) = _
          rw [if_neg h]
        rw [hstep] at hp
        exact hp
      rcases ih v p hp2 with ⟨h1, h2⟩
      refine ⟨le_trans h1 hvm, ?_⟩
      intro x hx
      rcases List.mem_cons.mp hx with hx | hx
      · exact hx ▸ h1
      · exact h2 x hx

end PendingSlot

/-! ## Claim theorems -/

/-- Claim C1: for every finite input vector over a total order, `from_vec`
followed by popping until `None` (that is, `into_vec`) emits every element of
the input exactly once (multiset equality) in non-decreasing order. -/
theorem from_vec_into_vec_sorted_perm [LinearOrder α]
    [DecidableRel (fun a b : α => a < b)] (v : List α) :
    List.Sorted (· ≤ ·) (Heap.from_vec v).into_vec ∧
    ((Heap.from_vec v).into_vec : Multiset α) = (↑v : Multiset α) := by
  rcases Heap.from_vec_spec v with ⟨hwf, htoM⟩
  rcases Heap.into_vec_spec hwf with ⟨hsort, hmm⟩
  exact ⟨hsort, by rw [hmm, htoM]⟩

/-- Claim C2 counterexample: in the merge-regression scenario the code does
not emit the sequence 1,2,3,4,6,5,7,8,9 that its own stale test comment
documents; the assertion in the same test, which the code satisfies, expects
the fully sorted sequence. -/
theorem append_scenario_not_comment_sequence :
    ((Heap.from_vec [3, 5, 1, 9]).append (Heap.from_vec [8, 2, 7, 4, 6])).into_vec ≠
      ([1, 2, 3, 4, 6, 5, 7, 8, 9] : List ℕ) := by
  decide

/-- Claim C2 (amended): building A from [3,5,1,9] and B from [8,2,7,4,6],
appending B into A and popping nine times emits exactly 1,2,3,4,5,6,7,8,9 —
the exactly-correct sequence asserted by the test, not the out-of-order
sequence claimed by the stale comment above it. -/
theorem append_scenario_into_vec_eq :
    ((Heap.from_vec [3, 5, 1, 9]).append (Heap.from_vec [8, 2, 7, 4, 6])).into_vec =
      ([1, 2, 3, 4, 5, 6, 7, 8, 9] : List ℕ) := by
  decide

/-- Claim C3 counterexample: the invariant list of the claim is not closed
under `push`.  The state with no roots, `len = 0` and the stale index
`top_index = 5` satisfies every listed invariant, but pushing one value onto
it leaves `top_index = 5` pointing outside the singleton root list. -/
theorem push_breaks_listed_invariants :
    (Heap.mk ([] : List (Node ℕ)) 5 0).Inv ∧
    ¬((Heap.mk ([] : List (Node ℕ)) 5 0).push 0).Inv := by
  constructor
  · refine ⟨by simp, ?_, by simp [Heap.toMultiset], by simp⟩
    intro hcon
    have hcon2 : (0 : ℕ) < 0 := hcon
    exact absurd hcon2 (by omega)
  · intro hInv
    have hp : (Heap.mk ([] : List (Node ℕ)) 5 0).push 0 = Heap.mk [Node.new 0] 5 1 := rfl
    rw [hp] at hInv
    rcases hInv with ⟨_, hmin, _, _⟩
    have hb : (5 : ℕ) < 1 := (hmin (by decide)).1
    omega

/-- Claim C3 (amended): every state-changing public operation (`new`,
`from_vec`, `push`, `pop` — which is also `Iterator::next` — and `append`)
preserves the listed heap invariants strengthened by the clause the code
actually maintains: an empty heap also has `top_index = 0`.  The read-only
operations `top`, `len` and `is_empty` are pure functions in this embedding
and trivially preserve every invariant. -/
theorem public_ops_preserve_WF [LinearOrder α]
    [DecidableRel (fun a b : α => a < b)] :
    (Heap.new : Heap α).WF ∧
    (∀ v : List α, (Heap.from_vec v).WF) ∧
    (∀ (h : Heap α) (x : α), h.WF → (h.push x).WF) ∧
    (∀ h : Heap α, h.WF → ((h.pop).2).WF) ∧
    (∀ h o : Heap α, h.WF → o.WF → (h.append o).WF) := by
  refine ⟨Heap.wf_empty, fun v => (Heap.from_vec_spec v).1,
    fun h x hwf => (Heap.push_spec hwf x).1, ?_,
    fun h o hw ow => (Heap.append_spec hw ow).1⟩
  intro h hwf
  by_cases h0 : h.len = 0
  · have hpop : h.pop = (none, h) := by
      unfold Heap.pop
      rw [if_pos h0]
    rw [hpop]
    exact hwf
  · rcases Heap.pop_spec hwf h0 with ⟨v, h2, hpop, hwf2, _⟩
    rw [hpop]
    exact hwf2

theorem public_ops_preserve_WF_witness :
    ((Heap.from_vec [3, 1, 2] : Heap ℕ).push 0).WF ∧
    (((Heap.from_vec [3, 1, 2] : Heap ℕ).pop).2).WF ∧
    ((Heap.from_vec [3, 1, 2] : Heap ℕ).append (Heap.from_vec [5])).WF :=
  ⟨public_ops_preserve_WF.2.2.1 _ 0 (public_ops_preserve_WF.2.1 [3, 1, 2]),
    public_ops_preserve_WF.2.2.2.1 _ (public_ops_preserve_WF.2.1 [3, 1, 2]),
    public_ops_preserve_WF.2.2.2.2 _ _ (public_ops_preserve_WF.2.1 [3, 1, 2])
      (public_ops_preserve_WF.2.1 [5])⟩

/-- Claim C4: `top` is a pure function of the heap in this embedding (it
mutates nothing), and for every well-formed heap it returns exactly the value
component the next `pop` would return — including the empty case, where both
yield `none`. -/
theorem top_agrees_with_pop [LinearOrder α]
    [DecidableRel (fun a b : α => a < b)] (h : Heap α) (hwf : h.WF) :
    h.top = (h.pop).1 :=
  Heap.top_eq_pop_fst h

theorem top_agrees_with_pop_witness :
    (Heap.from_vec [2, 1] : Heap ℕ).top = ((Heap.from_vec [2, 1] : Heap ℕ).pop).1 :=
  top_agrees_with_pop _ (Heap.from_vec_spec [2, 1]).1

/-- Claim C5: after a `pop` that returns a value and leaves the heap
non-empty, the rebuilt forest has pairwise distinct root degrees (at most one
root per degree), `top_index` equals the number of distinct degrees minus one
and addresses a root of minimal value, and `len` has decreased by exactly
one. -/
theorem pop_consolidation_postcondition [LinearOrder α]
    [DecidableRel (fun a b : α => a < b)] (h : Heap α) (v : α) (h2 : Heap α)
    (hwf : h.WF) (hp : h.pop = (some v, h2)) (hne : h2.len ≠ 0) :
    (h2.roots.map Node.degree).Nodup ∧
    h2.top_index = (h2.roots.map Node.degree).dedup.length - 1 ∧
    (∀ mn ∈ h2.roots[h2.top_index]?, ∀ r ∈ h2.roots, mn.value ≤ r.value) ∧
    h2.len + 1 = h.len := by
  have hne0 : h.len ≠ 0 := by
    intro h0
    have hpop : h.pop = (none, h) := by
      unfold Heap.pop
      rw [if_pos h0]
    rw [hpop, Prod.mk.injEq] at hp
    exact Option.noConfusion hp.1
  rcases Heap.pop_spec hwf hne0 with ⟨v2, h3, hpop, hwf3, hmult, hmin, hlen, hrest⟩
  rw [hpop, Prod.mk.injEq] at hp
  obtain ⟨hp1, hp2⟩ := hp
  subst hp2
  rcases hrest hne with ⟨hnd, hti, hminr⟩
  refine ⟨hnd, ?_, hminr, by omega⟩
  rw [List.Nodup.dedup hnd, List.length_map]
  exact hti

theorem pop_consolidation_postcondition_witness :
    (((Heap.from_vec [3, 1, 2] : Heap ℕ).pop).2).len + 1 =
      (Heap.from_vec [3, 1, 2] : Heap ℕ).len :=
  (pop_consolidation_postcondition (Heap.from_vec [3, 1, 2] : Heap ℕ) 1
    ((Heap.from_vec [3, 1, 2] : Heap ℕ).pop).2 (Heap.from_vec_spec [3, 1, 2]).1 (by rfl)
    (by decide)).2.2.2

/-- Claim C6: `append` is a no-op when the other heap is empty (so the drain
sequence of the receiver is unchanged), adopts the other heap wholesale when
the receiver is empty, and otherwise, when the other minimum is strictly
smaller, retargets `top_index` to the other minimum offset by the pre-merge
root count, concatenates the root lists without consolidation, and adds the
counts. -/
theorem append_cases_spec [LinearOrder α]
    [DecidableRel (fun a b : α => a < b)] (h o : Heap α) (hwf : h.WF)
    (owf : o.WF) :
    (o.len = 0 → h.append o = h ∧ (h.append o).into_vec = h.into_vec) ∧
    (h.len = 0 → h.append o = o) ∧
    (∀ a b : Node α, h.roots[h.top_index]? = some a →
      o.roots[o.top_index]? = some b → h.len ≠ 0 → o.len ≠ 0 →
      b.value < a.value →
      (h.append o).top_index = h.roots.length + o.top_index ∧
      (h.append o).roots = h.roots ++ o.roots ∧
      (h.append o).len = h.len + o.len) := by
  refine ⟨?_, ?_, ?_⟩
  · intro hoe
    have happ : h.append o = h := by
      unfold Heap.append
      rw [if_pos hoe]
    exact ⟨happ, by rw [happ]⟩
  · intro hhe
    by_cases hoe : o.len = 0
    · have happ : h.append o = h := by
        unfold Heap.append
        rw [if_pos hoe]
      have hh : h = Heap.mk [] 0 0 := by
        have hr := hwf.1.1.mp hhe
        have ht := hwf.2 hhe
        cases h with
        | mk r t l =>
          have hr2 : r = [] := hr
          have ht2 : t = 0 := ht
          have hl2 : l = 0 := hhe
          subst hr2
          subst ht2
          subst hl2
          rfl
      have ho : o = Heap.mk [] 0 0 := by
        have hr := owf.1.1.mp hoe
        have ht := owf.2 hoe
        cases o with
        | mk r t l =>
          have hr2 : r = [] := hr
          have ht2 : t = 0 := ht
          have hl2 : l = 0 := hoe
          subst hr2
          subst ht2
          subst hl2
          rfl
      rw [happ, hh, ho]
    · have happ : h.append o = o := by
        unfold Heap.append
        rw [if_neg hoe, if_pos hhe]
      exact happ
  · intro a b hga hgb hhe hoe hvb
    rw [Heap.append_eq_of_lt hga hgb hhe hoe hvb]
    exact ⟨rfl, rfl, rfl⟩

theorem append_cases_spec_witness :
    ((Heap.from_vec [5] : Heap ℕ).append (Heap.from_vec [2])).roots =
      (Heap.from_vec [5] : Heap ℕ).roots ++ (Heap.from_vec [2] : Heap ℕ).roots :=
  ((append_cases_spec (Heap.from_vec [5] : Heap ℕ) (Heap.from_vec [2] : Heap ℕ)
    (Heap.from_vec_spec [5]).1 (Heap.from_vec_spec [2]).1).2.2
    (Node.new 5) (Node.new 2) rfl rfl (by decide) (by decide) (by decide)).2.1

/-- Claim C7: `top` and the value component of `pop` return `none` exactly
when the count is zero, and `pop` on an empty heap returns `none` with the
heap state completely unchanged.  Both operations are total functions in this
embedding, so neither can fault. -/
theorem empty_indicator_spec [LinearOrder α]
    [DecidableRel (fun a b : α => a < b)] (h : Heap α) (hwf : h.WF) :
    (h.top = none ↔ h.len = 0) ∧ ((h.pop).1 = none ↔ h.len = 0) ∧
    (h.len = 0 → h.pop = (none, h)) := by
  have hpop0 : h.len = 0 → h.pop = (none, h) := by
    intro h0
    unfold Heap.pop
    rw [if_pos h0]
  have htop : h.top = none ↔ h.len = 0 := by
    constructor
    · intro ht
      by_contra h0
      rcases hwf with ⟨⟨hiff, hmin, _, _⟩, _⟩
      rcases hmin (Nat.pos_of_ne_zero h0) with ⟨hlt, _⟩
      unfold Heap.top at ht
      rw [if_neg h0, List.getElem?_eq_getElem hlt] at ht
      exact Option.noConfusion ht
    · intro h0
      unfold Heap.top
      rw [if_pos h0]
  refine ⟨htop, ?_, hpop0⟩
  rw [← Heap.top_eq_pop_fst]
  exact htop

theorem empty_indicator_spec_witness :
    ((Heap.from_vec [2, 5] : Heap ℕ).top = none ↔
      (Heap.from_vec [2, 5] : Heap ℕ).len = 0) :=
  (empty_indicator_spec _ (Heap.from_vec_spec [2, 5]).1).1

/-- Claim C8 counterexample: two equal-comparing but distinguishable values.
The tie triggers no swap, so `from_vec` emits the earlier-seen value as a
root immediately and retains the later-seen value in the pending slot, which
ends up as the final root addressed by `top_index`; the claim predicts the
earlier-seen value there instead. -/
theorem from_vec_tie_retains_later :
    ¬(KV.mk 1 0 < KV.mk 1 1) ∧ ¬(KV.mk 1 1 < KV.mk 1 0) ∧
    (Heap.from_vec [KV.mk 1 0, KV.mk 1 1]).top = some (KV.mk 1 1) ∧
    KV.mk 1 1 ≠ KV.mk 1 0 := by
  refine ⟨by decide, by decide, rfl, by decide⟩

/-- Claim C8 (amended): in the running-minimum reduction of `from_vec`,
equal values never trigger a swap (only a strictly greater incoming value
does), so whenever two equal values are compared — at any point of any run —
the earlier-seen of the two (the pending value) is emitted as a root
immediately and the later-seen is retained in the pending slot; and for every
non-empty input the pending slot's final value is emitted last, at index
`length - 1` where `top_index` points, as the minimum root (a lower bound of
every input value whenever the comparison is total). -/
theorem from_vec_tie_rule_general [Preorder α]
    [DecidableRel (fun a b : α => a < b)] :
    (∀ (m v : α) (vs : List α) (acc : List (Node α)), ¬m < v → ¬v < m →
      buildRoots (v :: vs) (some m) acc =
        buildRoots vs (some v) (acc ++ [Node.new m])) ∧
    (∀ (x : α) (xs : List α), ∃ t p,
      finalPending xs (some x) = some p ∧
      (Heap.from_vec (x :: xs)).roots = t ++ [Node.new p] ∧
      t.length = xs.length ∧
      (Heap.from_vec (x :: xs)).top_index = (x :: xs).length - 1 ∧
      (Heap.from_vec (x :: xs)).roots[(x :: xs).length - 1]? = some (Node.new p) ∧
      ((∀ a b : α, a ≤ b ∨ b ≤ a) → p ≤ x ∧ ∀ y ∈ xs, p ≤ y)) := by
  constructor
  · intro m v vs acc hmv _
    show (if m < v then buildRoots vs (some m) (acc ++ [Node.new v])
        else buildRoots vs (some v) (acc ++ [Node.new m])) =
      buildRoots vs (some v) (acc ++ [Node.new m])
    rw [if_neg hmv]
  · intro x xs
    have hroots : (Heap.from_vec (x :: xs)).roots = buildRoots (x :: xs) none [] := by
      unfold Heap.from_vec
      rw [if_neg (by simp)]
    have hti : (Heap.from_vec (x :: xs)).top_index = (x :: xs).length - 1 := by
      unfold Heap.from_vec
      rw [if_neg (by simp)]
    have hstep : buildRoots (x :: xs) none ([] : List (Node α)) =
        buildRoots xs (some x) [] := rfl
    rcases buildRoots_final_pending xs x [] with ⟨t, p, hp, hb, hl⟩
    rw [List.nil_append] at hb
    refine ⟨t, p, hp, ?_, hl, hti, ?_, ?_⟩
    · rw [hroots, hstep, hb]
    · rw [hroots, hstep, hb]
      have hidx : (x :: xs).length - 1 = t.length := by simp [hl]
      rw [hidx]
      exact List.getElem?_concat_length t (Node.new p)
    · intro htot
      exact finalPending_min htot xs x p hp

theorem from_vec_tie_rule_general_witness :
    (buildRoots [KV.mk 1 1] (some (KV.mk 1 0)) [] =
      buildRoots [] (some (KV.mk 1 1)) ([] ++ [Node.new (KV.mk 1 0)])) ∧
    ((1 : ℕ) ≤ 3 ∧ ∀ y ∈ [2, 1, 5], (1 : ℕ) ≤ y) := by
  constructor
  · exact from_vec_tie_rule_general.1 (KV.mk 1 0) (KV.mk 1 1) [] []
      (by decide) (by decide)
  · rcases from_vec_tie_rule_general.2 (3 : ℕ) [2, 1, 5] with
      ⟨t, p, hp, _, _, _, _, hmin⟩
    have hval : finalPending [2, 1, 5] (some (3 : ℕ)) = some 1 := by decide
    rw [hval, Option.some_inj] at hp
    subst hp
    exact hmin (fun a b => Nat.le_total a b)

/-- Claim C9: pushing n values one at a time onto an empty heap and draining
yields exactly the same sequence as bulk-building with `from_vec` from the
same values and draining — both are the ascending sort of the same
multiset. -/
theorem push_build_eq_from_vec_drain [LinearOrder α]
    [DecidableRel (fun a b : α => a < b)] (l : List α) :
    (l.foldl Heap.push Heap.new).into_vec = (Heap.from_vec l).into_vec := by
  rcases Heap.foldl_push_spec l Heap.new Heap.wf_empty with ⟨hwf1, htoM1⟩
  rcases Heap.from_vec_spec l with ⟨hwf2, htoM2⟩
  rcases Heap.into_vec_spec hwf1 with ⟨hs1, hm1⟩
  rcases Heap.into_vec_spec hwf2 with ⟨hs2, hm2⟩
  have hM : ((l.foldl Heap.push Heap.new).into_vec : Multiset α) =
      ((Heap.from_vec l).into_vec : Multiset α) := by
    rw [hm1, hm2, htoM1, htoM2]
    simp [Heap.new, Heap.toMultiset]
  exact List.eq_of_perm_of_sorted (Multiset.coe_eq_coe.mp hM) hs1 hs2

/-- Claim C10: `from_vec` of the empty vector returns the empty heap: it
equals `new` (the `Default::default` state), has count 0, reports empty, and
both `top` and `pop` return the empty indicator with no state change. -/
theorem from_vec_nil_spec [Preorder α] [DecidableRel (fun a b : α => a < b)] :
    Heap.from_vec ([] : List α) = Heap.new ∧
    (Heap.from_vec ([] : List α)).len = 0 ∧
    (Heap.from_vec ([] : List α)).is_empty = true ∧
    (Heap.from_vec ([] : List α)).top = none ∧
    (Heap.from_vec ([] : List α)).pop = (none, Heap.from_vec ([] : List α)) :=
  ⟨rfl, rfl, rfl, rfl, rfl⟩

end Fibheap
